import Mathlib

/-!
Verification of the call-composition utility in `tools/wrappers.py`.

The source module exposes one composition engine, `wrap_with_calls`, which
builds a decorator; the decorator wraps a target function so that a call to
the wrapped function runs, in order: the `first_call` hooks, the shared
hook `func` (once), the target, the shared hook `func` again, and the
`after_call` hooks, collecting every non-short-circuited result into a
result list, optionally short-circuiting on results accepted by
`return_filter_func`, and optionally folding the result list with
`reduce_result_func`.

The embedding below is parametric in the type `V` of Python values and the
type `K` of keyword-argument mappings (the source never inspects the
keyword mapping, it only forwards it, so it stays opaque).  Hooks are
modelled as pure functions `List V → K → V`.  Every invocation performed
by the wrapper is additionally recorded in an event trace so that ordering
and argument-flow properties can be stated.
-/

namespace Wrappers

variable {V K : Type}

/-- A Python callable as used by the wrapper: it receives positional
arguments and a keyword-argument mapping and yields one value. -/
abbrev Hook (V K : Type) := List V → K → V

/-- A configured parameter slot that can hold `None` (`absent`), a callable
(`fn`), or some other non-callable Python value (`nonCallable`).  The
source tests each such slot with `callable(x)` before using it. -/
inductive PySlot (V : Type) (α : Type) where
  | absent
  | fn (f : α)
  | nonCallable (v : V)

/-- The callable held by a slot, when there is one: mirrors `callable(x)`
being true exactly on the `fn` case. -/
def PySlot.toOption : PySlot V α → Option α
  | .fn f => Option.some f
  | _ => Option.none

/-- One element of an iterable passed as `first_call` or `after_call`:
`some f` when the element is callable, `none` when it is not (the loop in
the source skips non-callable elements via `if callable(item)`). -/
abbrev HookItem (V K : Type) := Option (Hook V K)

/-- The value passed as `first_call` or `after_call`: `None`, a single
callable, an iterable of (possibly non-callable) items, or any other
value. -/
inductive HookConfig (V K : Type) where
  | none
  | callable (f : Hook V K)
  | iterable (items : List (HookItem V K))
  | other (v : V)

/-- `list_of_callables` from the source: `None` becomes the empty list, a
single callable becomes a one-element list, an iterable becomes the list of
its items, and anything else silently becomes the empty list (the source
deliberately raises no exception here). -/
def list_of_callables : HookConfig V K → List (HookItem V K)
  | .none => []
  | .callable f => [Option.some f]
  | .iterable items => items
  | .other _ => []

/-- Identifies which configured callable an invocation event belongs to:
the i-th element of the normalized `first_call` list, the shared hook
`func`, the decorated target function, or the i-th element of the
normalized `after_call` list. -/
inductive CallSite where
  | first (i : Nat)
  | shared
  | target
  | after (i : Nat)
deriving DecidableEq

/-- Observable events of one wrapped call: `call site args kwds` records
that the callable at `site` was invoked with positional arguments `args`
and keyword mapping `kwds`; `append v` records that `v` was appended to
the result list (`results.append(...)` in the source). -/
inductive Event (V K : Type) where
  | call (site : CallSite) (args : List V) (kwds : K)
  | append (v : V)
deriving DecidableEq

/-- Intermediate outcome of a segment of the wrapped call: either the
segment finished normally with the accumulated result list and trace, or a
`return cur_result` short-circuit fired with the given return value. -/
inductive Phase (V K : Type) where
  | done (results : List V) (trace : List (Event V K))
  | short (ret : V) (trace : List (Event V K))

/-- The trace accumulated by a phase outcome, whichever way it ended. -/
def Phase.trace : Phase V K → List (Event V K)
  | .done _ t => t
  | .short _ t => t

/-- The closure state of `decorated_func_wrapper`: everything
`wrap_with_calls` captures for the wrapper.  `args` and `kwds` are the
already-defaulted `_args = args or tuple()` and `_kwds = kwds or dict()`
of the source. -/
structure Config (V K : Type) where
  func : PySlot V (Hook V K)
  func_args : List V
  first_call : HookConfig V K
  after_call : HookConfig V K
  args : List V
  kwds : K
  return_filter_func : PySlot V (V → Bool)
  reduce_result_func : PySlot V (V → V → V)

/-- The guarded filter application of the source:
`callable(return_filter_func) and return_filter_func(x)`.  A `None` or
non-callable filter never fires. -/
def filterFires (rf : PySlot V (V → Bool)) (x : V) : Bool :=
  match rf with
  | .fn f => f x
  | _ => false

/-- One `for item in list_of_callables(...)` loop of the source: skip
non-callable items, call each callable item with the fixed arguments,
short-circuit when the filter accepts the result, otherwise append the
result.  `site` labels events with the item's position in the normalized
list. -/
def runHookList (rf : PySlot V (V → Bool)) (site : Nat → CallSite)
    (a : List V) (k : K) :
    List (HookItem V K) → Nat → List V → List (Event V K) → Phase V K
  | [], _, results, trace => .done results trace
  | Option.none :: rest, i, results, trace =>
      runHookList rf site a k rest (i + 1) results trace
  | Option.some f :: rest, i, results, trace =>
      if filterFires rf (f a k) then
        .short (f a k) (trace ++ [.call (site i) a k])
      else
        runHookList rf site a k rest (i + 1) (results ++ [f a k])
          (trace ++ [.call (site i) a k, .append (f a k)])

/-- One `if callable(func): ...` block of the source: when the shared hook
is callable, call it with its own bound positional arguments prepended to
the fixed arguments (`func(*func_args, *_args, **_kwds)`), short-circuit
when the filter accepts the result, otherwise append the result. -/
def sharedStep (cfg : Config V K) (results : List V)
    (trace : List (Event V K)) : Phase V K :=
  match cfg.func with
  | .fn f =>
      if filterFires cfg.return_filter_func
          (f (cfg.func_args ++ cfg.args) cfg.kwds) then
        .short (f (cfg.func_args ++ cfg.args) cfg.kwds)
          (trace ++ [.call .shared (cfg.func_args ++ cfg.args) cfg.kwds])
      else
        .done (results ++ [f (cfg.func_args ++ cfg.args) cfg.kwds])
          (trace ++ [.call .shared (cfg.func_args ++ cfg.args) cfg.kwds,
            .append (f (cfg.func_args ++ cfg.args) cfg.kwds)])
  | _ => .done results trace

/-- `functools.reduce g` over a list, no initializer: the first element
seeds a left fold over the rest.  Python raises `TypeError` on an empty
sequence; the wrapper below never reduces an empty result list (the target
result is always appended first), so the empty case returns the
`Inhabited` default merely to keep the function total. -/
def functools_reduce [Inhabited V] (g : V → V → V) : List V → V
  | [] => default
  | x :: xs => xs.foldl g x

/-- The full observable outcome of one call of the wrapped function: the
returned value, the event trace, and the final result list (`none` when a
short-circuit discarded it). -/
structure RunOut (V K : Type) where
  ret : V
  trace : List (Event V K)
  results : Option (List V)
deriving DecidableEq

/-- The wrapper built by `wrap_with_calls` in the source, instrumented
with an event trace.  In source order: the `first_call` loop, the shared
hook `func` (before), the decorated function called with the caller's own
arguments and its result appended unconditionally (no filter check — the
filter lines for it are commented out in the source), the shared hook
`func` (after), the `after_call` loop, then either the `functools.reduce`
fold of the result list or the decorated function's own result. -/
def decorated_func_wrapper [Inhabited V] (cfg : Config V K)
    (decorated_func : Hook V K) (decorated_func_args : List V)
    (decorated_func_kwds : K) : RunOut V K :=
  match runHookList cfg.return_filter_func CallSite.first cfg.args cfg.kwds
      (list_of_callables cfg.first_call) 0 [] [] with
  | .short r t => ⟨r, t, Option.none⟩
  | .done results t =>
    match sharedStep cfg results t with
    | .short r t => ⟨r, t, Option.none⟩
    | .done results t =>
      match sharedStep cfg
          (results ++ [decorated_func decorated_func_args decorated_func_kwds])
          (t ++ [.call .target decorated_func_args decorated_func_kwds,
                 .append (decorated_func decorated_func_args
                   decorated_func_kwds)]) with
      | .short r t => ⟨r, t, Option.none⟩
      | .done results t =>
        match runHookList cfg.return_filter_func CallSite.after cfg.args
            cfg.kwds (list_of_callables cfg.after_call) 0 results t with
        | .short r t => ⟨r, t, Option.none⟩
        | .done results t =>
          match cfg.reduce_result_func with
          | .fn g => ⟨functools_reduce g results, t, Option.some results⟩
          | _ => ⟨decorated_func decorated_func_args decorated_func_kwds, t,
                  Option.some results⟩

/-- `wrap_with_calls` at composition time: it fixes the closure state of
the wrapper.  `args.getD []` is the source's `_args = args or tuple()`
(both `None` and the empty tuple default to the empty tuple). -/
def wrap_with_calls (func : PySlot V (Hook V K)) (func_args : List V)
    (first_call after_call : HookConfig V K) (args : Option (List V))
    (kwds : K) (return_filter_func : PySlot V (V → Bool))
    (reduce_result_func : PySlot V (V → V → V)) : Config V K :=
  ⟨func, func_args, first_call, after_call, args.getD [], kwds,
   return_filter_func, reduce_result_func⟩

/-- The `wrap_with` facade: a distinct before callable and after callable,
no shared hook, and the construction-time extra positional arguments
`func_args` spliced in front of the fixed arguments that all hooks share
(`args=(*func_args, *(args or tuple()))` in the source). -/
def wrap_with (func_before func_after : HookConfig V K)
    (func_args : List V) (args : Option (List V)) (kwds : K)
    (return_filter_func : PySlot V (V → Bool))
    (reduce_result_func : PySlot V (V → V → V)) : Config V K :=
  wrap_with_calls PySlot.absent [] func_before func_after
    (Option.some (func_args ++ args.getD [])) kwds
    return_filter_func reduce_result_func

/-- The `call_before` facade: before hooks only. -/
def call_before (func : HookConfig V K) (func_args : List V)
    (args : Option (List V)) (kwds : K)
    (return_filter_func : PySlot V (V → Bool))
    (reduce_result_func : PySlot V (V → V → V)) : Config V K :=
  wrap_with_calls PySlot.absent [] func HookConfig.none
    (Option.some (func_args ++ args.getD [])) kwds
    return_filter_func reduce_result_func

/-- The `call_after` facade: after hooks only. -/
def call_after (func : HookConfig V K) (func_args : List V)
    (args : Option (List V)) (kwds : K)
    (return_filter_func : PySlot V (V → Bool))
    (reduce_result_func : PySlot V (V → V → V)) : Config V K :=
  wrap_with_calls PySlot.absent [] HookConfig.none func
    (Option.some (func_args ++ args.getD [])) kwds
    return_filter_func reduce_result_func

/-! Specification-side view: the wrapper's behaviour is characterized by
the list of hook invocations it plans around the target.  Each planned
invocation records its call site, the arguments it receives and (because
hooks are pure) the result it produces.  `runInvs` processes such a list
exactly the way every hook-calling block of the source does. -/

/-- One planned hook invocation: its site, the arguments it is called
with, and its result. -/
structure Inv (V K : Type) where
  site : CallSite
  args : List V
  kwds : K
  res : V
deriving DecidableEq

/-- The call event of a planned invocation. -/
def callEv (inv : Inv V K) : Event V K :=
  .call inv.site inv.args inv.kwds

/-- The events a list of planned invocations contributes when every one of
them runs and none short-circuits: each call followed by its append. -/
def invEvents : List (Inv V K) → List (Event V K)
  | [] => []
  | inv :: rest => callEv inv :: Event.append inv.res :: invEvents rest

/-- Processing a list of planned invocations with the source's
short-circuit-or-append rule. -/
def runInvs (rf : PySlot V (V → Bool)) :
    List (Inv V K) → List V → List (Event V K) → Phase V K
  | [], results, trace => .done results trace
  | inv :: rest, results, trace =>
      if filterFires rf inv.res then
        .short inv.res (trace ++ [callEv inv])
      else
        runInvs rf rest (results ++ [inv.res])
          (trace ++ [callEv inv, Event.append inv.res])

/-- Sequencing of phases: a short-circuit propagates, a normal finish
feeds its state to the continuation. -/
def Phase.andThen (p : Phase V K)
    (f : List V → List (Event V K) → Phase V K) : Phase V K :=
  match p with
  | .short r t => .short r t
  | .done results t => f results t

/-- The invocations planned by a normalized hook-item list: non-callable
items contribute nothing, callable items are invoked with the fixed
arguments; `i` is the position of the head of the list. -/
def hookInvs (site : Nat → CallSite) (a : List V) (k : K) :
    List (HookItem V K) → Nat → List (Inv V K)
  | [], _ => []
  | Option.none :: rest, i => hookInvs site a k rest (i + 1)
  | Option.some f :: rest, i =>
      ⟨site i, a, k, f a k⟩ :: hookInvs site a k rest (i + 1)

/-- The invocation planned by one shared-hook block: one call with
`func_args` prepended to the fixed arguments when `func` is callable,
nothing otherwise. -/
def sharedInvs (cfg : Config V K) : List (Inv V K) :=
  match cfg.func with
  | .fn f => [⟨.shared, cfg.func_args ++ cfg.args, cfg.kwds,
               f (cfg.func_args ++ cfg.args) cfg.kwds⟩]
  | _ => []

/-- All invocations planned before the target: the `first_call` hooks in
order, then the shared hook. -/
def plannedPre (cfg : Config V K) : List (Inv V K) :=
  hookInvs CallSite.first cfg.args cfg.kwds
    (list_of_callables cfg.first_call) 0 ++ sharedInvs cfg

/-- All invocations planned after the target: the shared hook, then the
`after_call` hooks in order. -/
def plannedPost (cfg : Config V K) : List (Inv V K) :=
  sharedInvs cfg ++
    hookInvs CallSite.after cfg.args cfg.kwds
      (list_of_callables cfg.after_call) 0

/-- Specification-level restatement of the wrapper: run the planned
pre-target invocations, call the target with the caller's arguments and
append its result unconditionally, run the planned post-target
invocations, then reduce or return the target's result. -/
def runSpec [Inhabited V] (cfg : Config V K) (decorated_func : Hook V K)
    (a : List V) (k : K) : RunOut V K :=
  match (runInvs cfg.return_filter_func (plannedPre cfg) [] []).andThen
      (fun results t =>
        runInvs cfg.return_filter_func (plannedPost cfg)
          (results ++ [decorated_func a k])
          (t ++ [.call .target a k, .append (decorated_func a k)])) with
  | .short r t => ⟨r, t, Option.none⟩
  | .done results t =>
      match cfg.reduce_result_func with
      | .fn g => ⟨functools_reduce g results, t, Option.some results⟩
      | _ => ⟨decorated_func a k, t, Option.some results⟩

/-- Whether an event is a call event (as opposed to an append event). -/
def isCallEvent : Event V K → Bool
  | .call _ _ _ => true
  | .append _ => false

/-- The call events of a trace, in order. -/
def callsOf (tr : List (Event V K)) : List (Event V K) :=
  tr.filter isCallEvent

/-- `true` when a trace contains no invocation of the target. -/
def noTargetCall (tr : List (Event V K)) : Bool :=
  tr.all fun e =>
    match e with
    | .call .target _ _ => false
    | _ => true

/-- Argument discipline of one event of a wrapped call made with caller
arguments `a`/`k`: `first`/`after` hooks receive exactly the fixed
arguments, the shared hook receives its bound arguments prepended to the
fixed arguments, and the target receives exactly the caller's
arguments. -/
def callArgsOk [DecidableEq V] [DecidableEq K] (cfg : Config V K)
    (a : List V) (k : K) : Event V K → Bool
  | .call (.first _) ar kr => decide (ar = cfg.args) && decide (kr = cfg.kwds)
  | .call (.after _) ar kr => decide (ar = cfg.args) && decide (kr = cfg.kwds)
  | .call .shared ar kr =>
      decide (ar = cfg.func_args ++ cfg.args) && decide (kr = cfg.kwds)
  | .call .target ar kr => decide (ar = a) && decide (kr = k)
  | .append _ => true

/-- Checks that a `first` or `after` hook call event carries exactly the
positional arguments `xs`; other events pass. -/
def hookCallArgsEq [DecidableEq V] (xs : List V) : Event V K → Bool
  | .call (.first _) ar _ => decide (ar = xs)
  | .call (.after _) ar _ => decide (ar = xs)
  | _ => true

/-! Concrete configurations used to evaluate the theorems below on small
inputs. -/

/-- Sample configuration: two callable before hooks around a non-callable
item, a shared hook, one after hook, fixed argument 10, shared-hook bound
argument 5, no filter, no reducer. -/
def cfgOrder : Config Nat Unit :=
  { func := PySlot.fn fun a _ => a.foldl (· + ·) 100,
    func_args := [5],
    first_call := HookConfig.iterable
      [Option.some fun _ _ => 1, Option.none, Option.some fun a _ => a.headD 0],
    after_call := HookConfig.callable fun _ _ => 3,
    args := [10], kwds := (),
    return_filter_func := PySlot.absent,
    reduce_result_func := PySlot.absent }

/-- Filter predicate accepting exactly the value 7. -/
def pStop : Nat → Bool := fun r => decide (r = 7)

/-- Sample configuration: one before hook returning 7 and a filter that
accepts exactly 7, so the very first hook short-circuits. -/
def cfgStop : Config Nat Unit :=
  { func := PySlot.absent, func_args := [],
    first_call := HookConfig.callable fun _ _ => 7,
    after_call := HookConfig.callable fun _ _ => 9,
    args := [], kwds := (),
    return_filter_func := PySlot.fn pStop,
    reduce_result_func := PySlot.absent }

/-- Sample configuration: the filter accepts exactly 2, the before hook
returns 1 (no fire) and the after hook returns 2 (fires); the target below
will itself return 2, exercising the target's exemption from filtering. -/
def cfgExempt : Config Nat Unit :=
  { func := PySlot.absent, func_args := [],
    first_call := HookConfig.callable fun _ _ => 1,
    after_call := HookConfig.callable fun _ _ => 2,
    args := [], kwds := (),
    return_filter_func := PySlot.fn fun r => decide (r = 2),
    reduce_result_func := PySlot.absent }

/-- Sample configuration: a before hook returning 10, no filter, no
reducer; the target below returns 20. -/
def cfgPlain : Config Nat Unit :=
  { func := PySlot.absent, func_args := [],
    first_call := HookConfig.callable fun _ _ => 10,
    after_call := HookConfig.none,
    args := [], kwds := (),
    return_filter_func := PySlot.absent,
    reduce_result_func := PySlot.absent }

/-- Sample configuration: before hook returning 1, after hook returning 3,
no shared hook, additive reducer; the target below returns 2. -/
def cfgSum : Config Nat Unit :=
  { func := PySlot.absent, func_args := [],
    first_call := HookConfig.callable fun _ _ => 1,
    after_call := HookConfig.callable fun _ _ => 3,
    args := [], kwds := (),
    return_filter_func := PySlot.absent,
    reduce_result_func := PySlot.fn (· + ·) }

/-- Sample configuration: no hooks at all and no reducer, but a filter
that accepts everything — transparency must hold regardless, because the
filter is never consulted when no hook runs and the target is exempt. -/
def cfgBare : Config Nat Unit :=
  { func := PySlot.absent, func_args := [],
    first_call := HookConfig.none,
    after_call := HookConfig.none,
    args := [4, 5], kwds := (),
    return_filter_func := PySlot.fn fun _ => true,
    reduce_result_func := PySlot.absent }

/-- The paired facade with a before callable, an after callable, and the
construction-time extra positional argument 99. -/
def cfgPaired : Config Nat Unit :=
  wrap_with (HookConfig.callable fun _ _ => 1)
    (HookConfig.callable fun _ _ => 2) [99] Option.none ()
    PySlot.absent PySlot.absent

/-! Helper lemmas. -/

theorem filterFires_absent (x : V) :
    filterFires (PySlot.absent : PySlot V (V → Bool)) x = false := rfl

theorem filterFires_fn (p : V → Bool) (x : V) :
    filterFires (PySlot.fn p : PySlot V (V → Bool)) x = p x := rfl

theorem runHookList_eq_runInvs (rf : PySlot V (V → Bool))
    (site : Nat → CallSite) (a : List V) (k : K)
    (items : List (HookItem V K)) :
    ∀ (i : Nat) (results : List V) (trace : List (Event V K)),
      runHookList rf site a k items i results trace =
        runInvs rf (hookInvs site a k items i) results trace := by
  induction items with
  | nil => intro i results trace; rfl
  | cons hd rest ih =>
    intro i results trace
    cases hd with
    | none =>
      simp only [runHookList, hookInvs]
      exact ih (i + 1) results trace
    | some f =>
      simp only [runHookList, hookInvs, runInvs]
      by_cases h : filterFires rf (f a k) = true
      · simp only [h, if_true, callEv]
      · simp only [h, if_false, Bool.false_eq_true, callEv]
        exact ih (i + 1) _ _

theorem sharedStep_eq_runInvs (cfg : Config V K) (results : List V)
    (trace : List (Event V K)) :
    sharedStep cfg results trace =
      runInvs cfg.return_filter_func (sharedInvs cfg) results trace := by
  cases hf : cfg.func with
  | absent => simp [sharedStep, sharedInvs, hf, runInvs]
  | nonCallable v => simp [sharedStep, sharedInvs, hf, runInvs]
  | fn f =>
    simp only [sharedStep, sharedInvs, hf, runInvs, callEv]

theorem runInvs_append (rf : PySlot V (V → Bool)) (l1 l2 : List (Inv V K)) :
    ∀ (results : List V) (trace : List (Event V K)),
      runInvs rf (l1 ++ l2) results trace =
        (runInvs rf l1 results trace).andThen (runInvs rf l2) := by
  induction l1 with
  | nil => intro results trace; rfl
  | cons inv rest ih =>
    intro results trace
    simp only [List.cons_append, runInvs]
    by_cases h : filterFires rf inv.res = true
    · simp only [h, if_true, Phase.andThen]
    · simp only [h, if_false, Bool.false_eq_true]
      exact ih _ _

theorem wrapper_eq_runSpec [Inhabited V] (cfg : Config V K)
    (f : Hook V K) (a : List V) (k : K) :
    decorated_func_wrapper cfg f a k = runSpec cfg f a k := by
  unfold decorated_func_wrapper runSpec plannedPre plannedPost
  simp only [runHookList_eq_runInvs, sharedStep_eq_runInvs, runInvs_append]
  cases h1 : runInvs cfg.return_filter_func
      (hookInvs CallSite.first cfg.args cfg.kwds
        (list_of_callables cfg.first_call) 0) [] [] with
  | short r t => simp only [Phase.andThen]
  | done results t =>
    simp only [Phase.andThen]
    cases h2 : runInvs cfg.return_filter_func (sharedInvs cfg) results t with
    | short r t => simp only [Phase.andThen]
    | done results2 t2 =>
      simp only [Phase.andThen]
      cases h3 : runInvs cfg.return_filter_func (sharedInvs cfg)
          (results2 ++ [f a k])
          (t2 ++ [.call .target a k, .append (f a k)]) with
      | short r t => rfl
      | done results3 t3 => simp only [Phase.andThen]

theorem runInvs_noFire (rf : PySlot V (V → Bool)) (invs : List (Inv V K))
    (h : ∀ inv ∈ invs, filterFires rf inv.res = false) :
    ∀ (results : List V) (trace : List (Event V K)),
      runInvs rf invs results trace =
        .done (results ++ invs.map Inv.res) (trace ++ invEvents invs) := by
  induction invs with
  | nil => intro results trace; simp [runInvs, invEvents]
  | cons inv rest ih =>
    intro results trace
    have hf : filterFires rf inv.res = false := h inv (by simp)
    simp only [runInvs, hf, Bool.false_eq_true, if_false, List.map_cons,
      invEvents]
    rw [ih (fun j hj => h j (by simp [hj])) _ _]
    simp

theorem runInvs_fire (rf : PySlot V (V → Bool)) (l1 : List (Inv V K))
    (inv : Inv V K) (l2 : List (Inv V K))
    (h1 : ∀ j ∈ l1, filterFires rf j.res = false)
    (h2 : filterFires rf inv.res = true) :
    ∀ (results : List V) (trace : List (Event V K)),
      runInvs rf (l1 ++ inv :: l2) results trace =
        .short inv.res (trace ++ invEvents l1 ++ [callEv inv]) := by
  induction l1 with
  | nil => intro results trace; simp [runInvs, h2, invEvents]
  | cons j rest ih =>
    intro results trace
    have hf : filterFires rf j.res = false := h1 j (by simp)
    simp only [List.cons_append, runInvs, hf, Bool.false_eq_true, if_false,
      List.append_eq]
    rw [ih (fun i hi => h1 i (by simp [hi])) _ _]
    simp [invEvents]

theorem runInvs_done (rf : PySlot V (V → Bool)) (invs : List (Inv V K)) :
    ∀ (results : List V) (trace : List (Event V K)) (results2 : List V)
      (t2 : List (Event V K)),
      runInvs rf invs results trace = .done results2 t2 →
        results2 = results ++ invs.map Inv.res ∧
        t2 = trace ++ invEvents invs ∧
        ∀ inv ∈ invs, filterFires rf inv.res = false := by
  induction invs with
  | nil =>
    intro results trace results2 t2 h
    simp only [runInvs, Phase.done.injEq] at h
    simp [← h.1, ← h.2, invEvents]
  | cons inv rest ih =>
    intro results trace results2 t2 h
    simp only [runInvs] at h
    by_cases hf : filterFires rf inv.res = true
    · rw [if_pos hf] at h; exact absurd h (by simp)
    · rw [if_neg hf] at h
      obtain ⟨e1, e2, e3⟩ := ih _ _ _ _ h
      refine ⟨?_, ?_, ?_⟩
      · simp [e1]
      · simp [e2, invEvents]
      · intro j hj
        rcases List.mem_cons.mp hj with hj | hj
        · subst hj; exact Bool.not_eq_true _ ▸ (by simpa using hf)
        · exact e3 j hj

theorem runInvs_events_shape (rf : PySlot V (V → Bool))
    (invs : List (Inv V K)) :
    ∀ (results : List V) (trace : List (Event V K)),
      ∃ s, (runInvs rf invs results trace).trace = trace ++ s ∧
        ∀ e ∈ s, ∃ inv, inv ∈ invs ∧
          (e = callEv inv ∨ e = Event.append inv.res) := by
  induction invs with
  | nil => intro results trace; exact ⟨[], by simp [runInvs, Phase.trace], by simp⟩
  | cons inv rest ih =>
    intro results trace
    by_cases hf : filterFires rf inv.res = true
    · refine ⟨[callEv inv], ?_, ?_⟩
      · simp [runInvs, hf, Phase.trace]
      · intro e he
        simp only [List.mem_singleton] at he
        exact ⟨inv, by simp, Or.inl he⟩
    · obtain ⟨s, hs, hmem⟩ := ih (results ++ [inv.res])
        (trace ++ [callEv inv, Event.append inv.res])
      refine ⟨callEv inv :: Event.append inv.res :: s, ?_, ?_⟩
      · simp only [runInvs, hf, Bool.false_eq_true, if_false]
        rw [hs]; simp
      · intro e he
        rcases List.mem_cons.mp he with he | he
        · exact ⟨inv, by simp, Or.inl he⟩
        · rcases List.mem_cons.mp he with he | he
          · exact ⟨inv, by simp, Or.inr he⟩
          · obtain ⟨j, hj, hej⟩ := hmem e he
            exact ⟨j, by simp [hj], hej⟩

theorem runInvs_trace_all (rf : PySlot V (V → Bool)) (P : Event V K → Bool)
    (invs : List (Inv V K)) :
    ∀ (results : List V) (trace : List (Event V K)),
      trace.all P = true →
      (∀ inv ∈ invs, P (callEv inv) = true ∧ P (Event.append inv.res) = true) →
      ((runInvs rf invs results trace).trace).all P = true := by
  induction invs with
  | nil => intro results trace ht _; simpa [runInvs, Phase.trace] using ht
  | cons inv rest ih =>
    intro results trace ht hi
    have hc : P (callEv inv) = true := (hi inv (by simp)).1
    have ha : P (Event.append inv.res) = true := (hi inv (by simp)).2
    by_cases hf : filterFires rf inv.res = true
    · simp [runInvs, hf, Phase.trace, List.all_append, ht, hc]
    · simp only [runInvs, hf, Bool.false_eq_true, if_false]
      exact ih _ _ (by simp [List.all_append, ht, hc, ha])
        (fun j hj => hi j (by simp [hj]))

theorem runInvs_rf_congr (rf rf2 : PySlot V (V → Bool))
    (h : ∀ x, filterFires rf x = filterFires rf2 x) :
    ∀ (invs : List (Inv V K)) (results : List V) (trace : List (Event V K)),
      runInvs rf invs results trace = runInvs rf2 invs results trace := by
  intro invs
  induction invs with
  | nil => intro results trace; rfl
  | cons inv rest ih =>
    intro results trace
    simp only [runInvs, h inv.res]
    by_cases hf : filterFires rf2 inv.res = true
    · simp [hf]
    · simp only [hf, Bool.false_eq_true, if_false]
      exact ih _ _

theorem invEvents_append (l1 l2 : List (Inv V K)) :
    invEvents (l1 ++ l2) = invEvents l1 ++ invEvents l2 := by
  induction l1 with
  | nil => simp [invEvents]
  | cons inv rest ih => simp [invEvents, ih]

theorem mem_invEvents (invs : List (Inv V K)) (e : Event V K)
    (he : e ∈ invEvents invs) :
    ∃ inv, inv ∈ invs ∧ (e = callEv inv ∨ e = Event.append inv.res) := by
  induction invs with
  | nil => simp [invEvents] at he
  | cons inv rest ih =>
    simp only [invEvents, List.mem_cons] at he
    rcases he with he | he | he
    · exact ⟨inv, by simp, Or.inl he⟩
    · exact ⟨inv, by simp, Or.inr he⟩
    · obtain ⟨j, hj, hje⟩ := ih he
      exact ⟨j, by simp [hj], hje⟩

theorem isCallEvent_callEv (inv : Inv V K) : isCallEvent (callEv inv) = true := rfl

theorem callsOf_append (l1 l2 : List (Event V K)) :
    callsOf (l1 ++ l2) = callsOf l1 ++ callsOf l2 := by
  simp [callsOf, List.filter_append]

theorem callsOf_invEvents (invs : List (Inv V K)) :
    callsOf (invEvents invs) = invs.map callEv := by
  induction invs with
  | nil => rfl
  | cons inv rest ih =>
    simp only [invEvents, callsOf, List.filter_cons, isCallEvent_callEv,
      List.map_cons]
    simpa [callsOf, isCallEvent] using ih

theorem mem_hookInvs (site : Nat → CallSite) (a : List V) (k : K)
    (items : List (HookItem V K)) :
    ∀ (i : Nat) (inv : Inv V K), inv ∈ hookInvs site a k items i →
      inv.args = a ∧ inv.kwds = k ∧ ∃ j, inv.site = site j := by
  induction items with
  | nil => intro i inv h; simp [hookInvs] at h
  | cons hd rest ih =>
    intro i inv h
    cases hd with
    | none => exact ih (i + 1) inv h
    | some f =>
      simp only [hookInvs, List.mem_cons] at h
      rcases h with h | h
      · subst h; exact ⟨rfl, rfl, i, rfl⟩
      · exact ih (i + 1) inv h

theorem mem_sharedInvs (cfg : Config V K) (inv : Inv V K)
    (h : inv ∈ sharedInvs cfg) :
    inv.site = CallSite.shared ∧ inv.args = cfg.func_args ++ cfg.args ∧
      inv.kwds = cfg.kwds := by
  cases hf : cfg.func with
  | absent => simp [sharedInvs, hf] at h
  | nonCallable v => simp [sharedInvs, hf] at h
  | fn f =>
    simp only [sharedInvs, hf, List.mem_singleton] at h
    subst h; exact ⟨rfl, rfl, rfl⟩

theorem mem_plannedPre (cfg : Config V K) (inv : Inv V K)
    (h : inv ∈ plannedPre cfg) :
    (inv.args = cfg.args ∧ inv.kwds = cfg.kwds ∧
      ∃ j, inv.site = CallSite.first j) ∨
    (inv.site = CallSite.shared ∧ inv.args = cfg.func_args ++ cfg.args ∧
      inv.kwds = cfg.kwds) := by
  rcases List.mem_append.mp h with h | h
  · exact Or.inl (mem_hookInvs _ _ _ _ 0 inv h)
  · exact Or.inr (mem_sharedInvs cfg inv h)

theorem mem_plannedPost (cfg : Config V K) (inv : Inv V K)
    (h : inv ∈ plannedPost cfg) :
    (inv.args = cfg.args ∧ inv.kwds = cfg.kwds ∧
      ∃ j, inv.site = CallSite.after j) ∨
    (inv.site = CallSite.shared ∧ inv.args = cfg.func_args ++ cfg.args ∧
      inv.kwds = cfg.kwds) := by
  rcases List.mem_append.mp h with h | h
  · exact Or.inr (mem_sharedInvs cfg inv h)
  · exact Or.inl (mem_hookInvs _ _ _ _ 0 inv h)

theorem plannedPre_site (cfg : Config V K) (inv : Inv V K)
    (h : inv ∈ plannedPre cfg) : inv.site ≠ CallSite.target := by
  rcases mem_plannedPre cfg inv h with ⟨_, _, j, hj⟩ | ⟨hj, _, _⟩ <;>
    simp [hj]

theorem plannedPost_site (cfg : Config V K) (inv : Inv V K)
    (h : inv ∈ plannedPost cfg) : inv.site ≠ CallSite.target := by
  rcases mem_plannedPost cfg inv h with ⟨_, _, j, hj⟩ | ⟨hj, _, _⟩ <;>
    simp [hj]

theorem noTargetCall_of_events (invs : List (Inv V K)) (s : List (Event V K))
    (hs : ∀ e ∈ s, ∃ inv, inv ∈ invs ∧
      (e = callEv inv ∨ e = Event.append inv.res))
    (hsite : ∀ inv ∈ invs, inv.site ≠ CallSite.target) :
    noTargetCall s = true := by
  rw [noTargetCall, List.all_eq_true]
  intro e he
  obtain ⟨inv, hinv, hev⟩ := hs e he
  rcases hev with hev | hev
  · subst hev
    have hns := hsite inv hinv
    cases hst : inv.site with
    | target => exact absurd hst hns
    | first i => simp [callEv, hst]
    | shared => simp [callEv, hst]
    | after i => simp [callEv, hst]
  · subst hev; rfl

theorem noTargetCall_invEvents (invs : List (Inv V K))
    (hsite : ∀ inv ∈ invs, inv.site ≠ CallSite.target) :
    noTargetCall (invEvents invs) = true :=
  noTargetCall_of_events invs _ (mem_invEvents invs) hsite

theorem wrapper_trace_all [Inhabited V] (cfg : Config V K) (f : Hook V K)
    (a : List V) (k : K) (P : Event V K → Bool)
    (hpre : ∀ inv ∈ plannedPre cfg,
      P (callEv inv) = true ∧ P (Event.append inv.res) = true)
    (hpost : ∀ inv ∈ plannedPost cfg,
      P (callEv inv) = true ∧ P (Event.append inv.res) = true)
    (ht : P (Event.call CallSite.target a k) = true)
    (ha : P (Event.append (f a k)) = true) :
    ((decorated_func_wrapper cfg f a k).trace).all P = true := by
  rw [wrapper_eq_runSpec]
  unfold runSpec
  cases h1 : runInvs cfg.return_filter_func (plannedPre cfg) [] [] with
  | short r t =>
    have h := runInvs_trace_all cfg.return_filter_func P (plannedPre cfg)
      [] [] (by simp) hpre
    rw [h1] at h
    simpa [Phase.andThen, Phase.trace] using h
  | done results t =>
    have h := runInvs_trace_all cfg.return_filter_func P (plannedPre cfg)
      [] [] (by simp) hpre
    rw [h1] at h
    have htall : t.all P = true := by simpa [Phase.trace] using h
    have hext :
        (t ++ [Event.call CallSite.target a k,
          Event.append (f a k)]).all P = true := by
      simp [List.all_append, htall, ht, ha]
    have h2 := runInvs_trace_all cfg.return_filter_func P (plannedPost cfg)
      (results ++ [f a k])
      (t ++ [Event.call CallSite.target a k, Event.append (f a k)])
      hext hpost
    simp only [Phase.andThen]
    cases h3 : runInvs cfg.return_filter_func (plannedPost cfg)
        (results ++ [f a k])
        (t ++ [Event.call CallSite.target a k, Event.append (f a k)]) with
    | short r2 t2 =>
      rw [h3] at h2
      simpa [Phase.trace] using h2
    | done results2 t2 =>
      rw [h3] at h2
      cases cfg.reduce_result_func <;> simpa [Phase.trace] using h2

theorem wrapper_noFire [Inhabited V] (cfg : Config V K) (f : Hook V K)
    (a : List V) (k : K)
    (hpre : ∀ inv ∈ plannedPre cfg,
      filterFires cfg.return_filter_func inv.res = false)
    (hpost : ∀ inv ∈ plannedPost cfg,
      filterFires cfg.return_filter_func inv.res = false) :
    (decorated_func_wrapper cfg f a k).trace =
      invEvents (plannedPre cfg) ++ Event.call CallSite.target a k ::
        Event.append (f a k) :: invEvents (plannedPost cfg) ∧
    (decorated_func_wrapper cfg f a k).results =
      Option.some ((plannedPre cfg).map Inv.res ++ f a k ::
        (plannedPost cfg).map Inv.res) := by
  rw [wrapper_eq_runSpec]
  unfold runSpec
  rw [runInvs_noFire _ _ hpre]
  simp only [Phase.andThen, List.nil_append]
  rw [runInvs_noFire _ _ hpost]
  cases cfg.reduce_result_func <;> simp

/-- C1: with no return filter configured, one call of the wrapped function
invokes the callables in exactly this order: each callable
`first_call` hook in insertion order, then the shared hook `func`, then
the target with the caller's arguments, then the shared hook again, then
each callable `after_call` hook in insertion order. -/
theorem c1_invocation_order [Inhabited V] (cfg : Config V K)
    (f : Hook V K) (a : List V) (k : K)
    (hrf : cfg.return_filter_func = PySlot.absent) :
    callsOf (decorated_func_wrapper cfg f a k).trace =
      (hookInvs CallSite.first cfg.args cfg.kwds
        (list_of_callables cfg.first_call) 0).map callEv ++
      (sharedInvs cfg).map callEv ++
      Event.call CallSite.target a k ::
      ((sharedInvs cfg).map callEv ++
       (hookInvs CallSite.after cfg.args cfg.kwds
         (list_of_callables cfg.after_call) 0).map callEv) := by
  have hpre : ∀ inv ∈ plannedPre cfg,
      filterFires cfg.return_filter_func inv.res = false := by
    intro inv _; rw [hrf]; rfl
  have hpost : ∀ inv ∈ plannedPost cfg,
      filterFires cfg.return_filter_func inv.res = false := by
    intro inv _; rw [hrf]; rfl
  obtain ⟨htr, _⟩ := wrapper_noFire cfg f a k hpre hpost
  rw [htr]
  have hmid : ∀ (l : List (Event V K)),
      callsOf (Event.call CallSite.target a k ::
        Event.append (f a k) :: l) =
        Event.call CallSite.target a k :: callsOf l := by
    intro l; simp [callsOf, isCallEvent]
  rw [callsOf_append, hmid, callsOf_invEvents, callsOf_invEvents]
  simp [plannedPre, plannedPost, invEvents_append, List.map_append]

/-- Concrete check of `c1_invocation_order` on `cfgOrder`: two callable
before hooks (a non-callable item between them), a shared hook called
twice, one after hook. -/
theorem c1_witness :
    cfgOrder.return_filter_func = PySlot.absent ∧
    callsOf (decorated_func_wrapper cfgOrder
        (fun a _ => a.headD 0) [7] ()).trace =
      (hookInvs CallSite.first cfgOrder.args cfgOrder.kwds
        (list_of_callables cfgOrder.first_call) 0).map callEv ++
      (sharedInvs cfgOrder).map callEv ++
      Event.call CallSite.target [7] () ::
      ((sharedInvs cfgOrder).map callEv ++
       (hookInvs CallSite.after cfgOrder.args cfgOrder.kwds
         (list_of_callables cfgOrder.after_call) 0).map callEv) :=
  ⟨rfl, c1_invocation_order cfgOrder (fun a _ => a.headD 0) [7] () rfl⟩

theorem noTargetCall_append (l1 l2 : List (Event V K)) :
    noTargetCall (l1 ++ l2) = (noTargetCall l1 && noTargetCall l2) := by
  simp [noTargetCall, List.all_append]

theorem noTargetCall_callEv (inv : Inv V K)
    (h : inv.site ≠ CallSite.target) : noTargetCall [callEv inv] = true :=
  noTargetCall_of_events [inv] _
    (by intro e he; simp only [List.mem_singleton] at he
        exact ⟨inv, by simp, Or.inl he⟩)
    (by intro j hj; simp only [List.mem_singleton] at hj; subst hj; exact h)

/-- C2: with a return filter configured, if the filter accepts the result
of a (before- or after- or shared-) hook invocation and no earlier hook
result was accepted, the wrapper returns that result immediately: the
result list is discarded and the trace ends at that call, so no later
callable runs; when the firing invocation precedes the target, the target
is never invoked at all. -/
theorem c2_short_circuit [Inhabited V] (cfg : Config V K) (p : V → Bool)
    (hrf : cfg.return_filter_func = PySlot.fn p) (f : Hook V K)
    (a : List V) (k : K) :
    (∀ l1 inv l2, plannedPre cfg = l1 ++ inv :: l2 →
      (∀ j ∈ l1, p j.res = false) → p inv.res = true →
      (decorated_func_wrapper cfg f a k).ret = inv.res ∧
      (decorated_func_wrapper cfg f a k).results = Option.none ∧
      (decorated_func_wrapper cfg f a k).trace =
        invEvents l1 ++ [callEv inv] ∧
      noTargetCall (decorated_func_wrapper cfg f a k).trace = true) ∧
    (∀ l1 inv l2, plannedPost cfg = l1 ++ inv :: l2 →
      (∀ j ∈ plannedPre cfg, p j.res = false) →
      (∀ j ∈ l1, p j.res = false) → p inv.res = true →
      (decorated_func_wrapper cfg f a k).ret = inv.res ∧
      (decorated_func_wrapper cfg f a k).results = Option.none ∧
      (decorated_func_wrapper cfg f a k).trace =
        invEvents (plannedPre cfg) ++ Event.call CallSite.target a k ::
          Event.append (f a k) :: (invEvents l1 ++ [callEv inv])) := by
  constructor
  · intro l1 inv l2 hsplit hno hfire
    rw [wrapper_eq_runSpec]
    unfold runSpec
    rw [hsplit, runInvs_fire cfg.return_filter_func l1 inv l2
      (by intro j hj; rw [hrf, filterFires_fn]; exact hno j hj)
      (by rw [hrf, filterFires_fn]; exact hfire)]
    simp only [Phase.andThen, List.nil_append]
    refine ⟨by trivial, by trivial, by trivial, ?_⟩
    rw [noTargetCall_append]
    have hm1 : noTargetCall (invEvents l1) = true := by
      apply noTargetCall_invEvents
      intro j hj
      exact plannedPre_site cfg j (by rw [hsplit]; simp [hj])
    have hm2 : noTargetCall [callEv inv] = true := by
      apply noTargetCall_callEv
      exact plannedPre_site cfg inv (by rw [hsplit]; simp)
    simp [hm1, hm2]
  · intro l1 inv l2 hsplit hpre hno hfire
    rw [wrapper_eq_runSpec]
    unfold runSpec
    rw [runInvs_noFire _ _
      (by intro j hj; rw [hrf, filterFires_fn]; exact hpre j hj)]
    simp only [Phase.andThen, List.nil_append]
    rw [hsplit, runInvs_fire cfg.return_filter_func l1 inv l2
      (by intro j hj; rw [hrf, filterFires_fn]; exact hno j hj)
      (by rw [hrf, filterFires_fn]; exact hfire)]
    refine ⟨by trivial, by trivial, ?_⟩
    simp [List.append_assoc]

/-- Concrete check of `c2_short_circuit` on `cfgStop`: the single before
hook returns 7, the filter accepts 7, so the wrapper returns 7 and the
target is never invoked. -/
theorem c2_witness :
    cfgStop.return_filter_func = PySlot.fn pStop ∧
    (decorated_func_wrapper cfgStop (fun _ _ => 0) [] ()).ret = 7 ∧
    (decorated_func_wrapper cfgStop (fun _ _ => 0) [] ()).results =
      Option.none ∧
    noTargetCall (decorated_func_wrapper cfgStop (fun _ _ => 0) [] ()).trace
      = true := by
  have h := (c2_short_circuit cfgStop pStop rfl (fun _ _ => 0) [] ()).1
    [] ⟨CallSite.first 0, [], (), 7⟩ [] rfl (by simp) rfl
  exact ⟨rfl, h.1, h.2.1, h.2.2.2⟩

/-- C3: on every invocation that reaches the target (no pre-target
short-circuit), the target is invoked exactly once, immediately after the
pre-target hook events, and its result is appended to the result list
right away — the return filter is not consulted on it — regardless of the
filter and reducer configuration; no other target invocation appears
anywhere in the trace. -/
theorem c3_target_appended_once [Inhabited V] (cfg : Config V K)
    (f : Hook V K) (a : List V) (k : K)
    (hpre : ∀ j ∈ plannedPre cfg,
      filterFires cfg.return_filter_func j.res = false) :
    ∃ t2, (decorated_func_wrapper cfg f a k).trace =
        invEvents (plannedPre cfg) ++ Event.call CallSite.target a k ::
          Event.append (f a k) :: t2 ∧
      noTargetCall (invEvents (plannedPre cfg)) = true ∧
      noTargetCall t2 = true := by
  rw [wrapper_eq_runSpec]
  unfold runSpec
  rw [runInvs_noFire _ _ hpre]
  simp only [Phase.andThen, List.nil_append]
  obtain ⟨s, hs, hmem⟩ := runInvs_events_shape cfg.return_filter_func
    (plannedPost cfg) ((plannedPre cfg).map Inv.res ++ [f a k])
    (invEvents (plannedPre cfg) ++
      [Event.call CallSite.target a k, Event.append (f a k)])
  refine ⟨s, ?_, ?_, ?_⟩
  · cases h3 : runInvs cfg.return_filter_func (plannedPost cfg)
        ((plannedPre cfg).map Inv.res ++ [f a k])
        (invEvents (plannedPre cfg) ++
          [Event.call CallSite.target a k, Event.append (f a k)]) with
    | short r t =>
      rw [h3] at hs
      simp only [Phase.trace] at hs
      simp [hs]
    | done res t =>
      rw [h3] at hs
      simp only [Phase.trace] at hs
      cases cfg.reduce_result_func <;> simp [hs]
  · exact noTargetCall_invEvents _ (fun inv h => plannedPre_site cfg inv h)
  · exact noTargetCall_of_events (plannedPost cfg) s hmem
      (fun inv h => plannedPost_site cfg inv h)

/-- Concrete check of `c3_target_appended_once` on `cfgExempt`: the filter
accepts exactly 2 and the target returns 2, yet the target result is
appended without consulting the filter; the subsequent after hook returns
2 and short-circuits, post-target. -/
theorem c3_witness :
    (∀ j ∈ plannedPre cfgExempt,
      filterFires cfgExempt.return_filter_func j.res = false) ∧
    ∃ t2, (decorated_func_wrapper cfgExempt (fun _ _ => 2) [] ()).trace =
        invEvents (plannedPre cfgExempt) ++
          Event.call CallSite.target [] () :: Event.append 2 :: t2 ∧
      noTargetCall (invEvents (plannedPre cfgExempt)) = true ∧
      noTargetCall t2 = true :=
  ⟨by decide, c3_target_appended_once cfgExempt (fun _ _ => 2) [] ()
    (by decide)⟩

/-- C4: with no reducer configured, whenever no short-circuit fires (the
result list survives to the end), the wrapper returns exactly the target
function's own result. -/
theorem c4_no_reducer_returns_target [Inhabited V] (cfg : Config V K)
    (f : Hook V K) (a : List V) (k : K)
    (hred : cfg.reduce_result_func = PySlot.absent)
    (hdone : (decorated_func_wrapper cfg f a k).results.isSome = true) :
    (decorated_func_wrapper cfg f a k).ret = f a k := by
  rw [wrapper_eq_runSpec] at hdone ⊢
  unfold runSpec at hdone ⊢
  generalize h1 : runInvs cfg.return_filter_func (plannedPre cfg) [] [] = p1
    at hdone ⊢
  cases p1 with
  | short r t =>
    simp [Phase.andThen] at hdone
  | done res t =>
    simp only [Phase.andThen] at hdone ⊢
    generalize h2 : runInvs cfg.return_filter_func (plannedPost cfg)
        (res ++ [f a k])
        (t ++ [Event.call CallSite.target a k, Event.append (f a k)]) = p2
      at hdone ⊢
    cases p2 with
    | short r2 t2 =>
      simp at hdone
    | done res2 t2 =>
      simp [hred]

/-- Concrete check of `c4_no_reducer_returns_target` on `cfgPlain`: the
before hook returns 10, the target returns 20, the wrapper returns 20. -/
theorem c4_witness :
    cfgPlain.reduce_result_func = PySlot.absent ∧
    (decorated_func_wrapper cfgPlain (fun _ _ => 20) [] ()).results.isSome
      = true ∧
    (decorated_func_wrapper cfgPlain (fun _ _ => 20) [] ()).ret = 20 :=
  ⟨rfl, by decide,
    c4_no_reducer_returns_target cfgPlain (fun _ _ => 20) [] () rfl
      (by decide)⟩

/-- C5: with a callable reducer configured, whenever no short-circuit
fires, the surviving result list is exactly the results of all planned
invocations in execution order with the target result in the middle, and
the wrapper returns its left-to-right `functools.reduce` fold. -/
theorem c5_reducer_folds [Inhabited V] (cfg : Config V K) (g : V → V → V)
    (hg : cfg.reduce_result_func = PySlot.fn g) (f : Hook V K)
    (a : List V) (k : K) (rs : List V)
    (hres : (decorated_func_wrapper cfg f a k).results = Option.some rs) :
    rs = (plannedPre cfg).map Inv.res ++ f a k ::
        (plannedPost cfg).map Inv.res ∧
    (decorated_func_wrapper cfg f a k).ret = functools_reduce g rs := by
  rw [wrapper_eq_runSpec] at hres ⊢
  unfold runSpec at hres ⊢
  generalize h1 : runInvs cfg.return_filter_func (plannedPre cfg) [] [] = p1
    at hres ⊢
  cases p1 with
  | short r t =>
    simp [Phase.andThen] at hres
  | done res t =>
    simp only [Phase.andThen] at hres ⊢
    generalize h2 : runInvs cfg.return_filter_func (plannedPost cfg)
        (res ++ [f a k])
        (t ++ [Event.call CallSite.target a k, Event.append (f a k)]) = p2
      at hres ⊢
    cases p2 with
    | short r2 t2 =>
      simp at hres
    | done res2 t2 =>
      simp only [hg, Option.some.injEq] at hres
      obtain ⟨hr1, -, -⟩ := runInvs_done cfg.return_filter_func
        (plannedPre cfg) [] [] res t h1
      obtain ⟨hr2, -, -⟩ := runInvs_done cfg.return_filter_func
        (plannedPost cfg) (res ++ [f a k])
        (t ++ [Event.call CallSite.target a k, Event.append (f a k)])
        res2 t2 h2
    /- hr1: res is the pre-target results; hr2: res2 extends them with the
       target result and the post-target results. -/
      constructor
      · rw [← hres, hr2, hr1]
        simp
      · simp [hg, hres]

/-- Concrete check of `c5_reducer_folds` on `cfgSum`: before hook 1,
target 2, after hook 3, additive reducer: the result list is [1, 2, 3] and
the wrapper returns 6. -/
theorem c5_witness :
    cfgSum.reduce_result_func = PySlot.fn (· + ·) ∧
    (decorated_func_wrapper cfgSum (fun _ _ => 2) [] ()).results =
      Option.some [1, 2, 3] ∧
    ([1, 2, 3] = (plannedPre cfgSum).map Inv.res ++ 2 ::
        (plannedPost cfgSum).map Inv.res ∧
      (decorated_func_wrapper cfgSum (fun _ _ => 2) [] ()).ret =
        functools_reduce (· + ·) [1, 2, 3]) :=
  ⟨rfl, by decide,
    c5_reducer_folds cfgSum (· + ·) rfl (fun _ _ => 2) [] () [1, 2, 3]
      (by decide)⟩

/-- C6: with no before hooks, no after hooks, no shared hook and no
reducer, wrapping is transparent: the wrapped function returns exactly
what the target returns on the caller's arguments. -/
theorem c6_transparency [Inhabited V] (cfg : Config V K) (f : Hook V K)
    (a : List V) (k : K) (h1 : cfg.func = PySlot.absent)
    (h2 : cfg.first_call = HookConfig.none)
    (h3 : cfg.after_call = HookConfig.none)
    (h4 : cfg.reduce_result_func = PySlot.absent) :
    (decorated_func_wrapper cfg f a k).ret = f a k := by
  simp [decorated_func_wrapper, sharedStep, h1, h2, h3, h4,
    list_of_callables, runHookList]

/-- Concrete check of `c6_transparency` on `cfgBare`: no hooks and no
reducer (and an always-true filter that is never consulted); the wrapper
returns the target's sum of its arguments. -/
theorem c6_witness :
    cfgBare.func = PySlot.absent ∧
    cfgBare.first_call = HookConfig.none ∧
    cfgBare.after_call = HookConfig.none ∧
    cfgBare.reduce_result_func = PySlot.absent ∧
    (decorated_func_wrapper cfgBare (fun a _ => a.foldl (· + ·) 0)
      [11, 31] ()).ret = 42 :=
  ⟨rfl, rfl, rfl, rfl,
    c6_transparency cfgBare (fun a _ => a.foldl (· + ·) 0) [11, 31] ()
      rfl rfl rfl rfl⟩

/-- C7: argument isolation — in every run, whatever the configuration,
the target is invoked with exactly the caller-supplied arguments (never
the fixed arguments), every `first_call`/`after_call` hook with exactly
the fixed arguments, and the shared hook with its own bound positional
arguments prepended to the fixed arguments. -/
theorem c7_argument_isolation [Inhabited V] [DecidableEq V] [DecidableEq K]
    (cfg : Config V K) (f : Hook V K) (a : List V) (k : K) :
    ((decorated_func_wrapper cfg f a k).trace).all (callArgsOk cfg a k)
      = true := by
  apply wrapper_trace_all
  · intro inv hinv
    rcases mem_plannedPre cfg inv hinv with ⟨ha, hk, j, hs⟩ | ⟨hs, ha, hk⟩ <;>
      simp [callArgsOk, callEv, hs, ha, hk]
  · intro inv hinv
    rcases mem_plannedPost cfg inv hinv with ⟨ha, hk, j, hs⟩ | ⟨hs, ha, hk⟩ <;>
      simp [callArgsOk, callEv, hs, ha, hk]
  · simp [callArgsOk]
  · rfl

/-- C8: a non-callable, non-iterable value passed as `first_call` (or as
`after_call`) is silently normalized to the empty hook sequence: the
wrapped call has exactly the same outcome as with no such hooks
configured, and the (total) normalization raises nothing. -/
theorem c8_lenient_hook_config [Inhabited V] (cfg : Config V K) (v w : V)
    (f : Hook V K) (a : List V) (k : K) :
    decorated_func_wrapper { cfg with first_call := HookConfig.other v }
        f a k =
      decorated_func_wrapper { cfg with first_call := HookConfig.none }
        f a k ∧
    decorated_func_wrapper { cfg with after_call := HookConfig.other w }
        f a k =
      decorated_func_wrapper { cfg with after_call := HookConfig.none }
        f a k :=
  ⟨rfl, rfl⟩

/-- C9, counterexample: in the paired facade, the construction-time extra
positional argument 99 is supplied to BOTH the before callable and the
after callable — the trace of one call of `cfgPaired`'s wrapper contains
a `first`-hook invocation with argument list [99] and an `after`-hook
invocation with argument list [99].  The claim that the extra arguments
reach only one specific callable and are not supplied to the other is
therefore false. -/
theorem c9_counterexample :
    Event.call (CallSite.first 0) [99] () ∈
      (decorated_func_wrapper cfgPaired (fun _ _ => 0) [] ()).trace ∧
    Event.call (CallSite.after 0) [99] () ∈
      (decorated_func_wrapper cfgPaired (fun _ _ => 0) [] ()).trace := by
  decide

/-- C9, amended: in the paired facade, extra positional arguments supplied
at construction time are prepended to the Fixed Call Arguments shared by
the whole configuration, so every before-hook and after-hook invocation —
both callables alike — receives exactly those extra arguments followed by
the fixed arguments. -/
theorem c9_amended_extra_args_shared [Inhabited V] [DecidableEq V]
    (func_before func_after : HookConfig V K) (func_args : List V)
    (args : Option (List V)) (kwds : K) (rf : PySlot V (V → Bool))
    (rr : PySlot V (V → V → V)) (f : Hook V K) (a : List V) (k : K) :
    (wrap_with func_before func_after func_args args kwds rf rr).args =
      func_args ++ args.getD [] ∧
    ((decorated_func_wrapper
        (wrap_with func_before func_after func_args args kwds rf rr)
        f a k).trace).all
      (hookCallArgsEq (func_args ++ args.getD [])) = true := by
  have hargs :
      (wrap_with func_before func_after func_args args kwds rf rr).args =
        func_args ++ args.getD [] := rfl
  refine ⟨hargs, ?_⟩
  apply wrapper_trace_all
  · intro inv hinv
    rcases mem_plannedPre _ inv hinv with ⟨ha, hk, j, hs⟩ | ⟨hs, ha, hk⟩ <;>
      simp [hookCallArgsEq, callEv, hs, ha, hargs]
  · intro inv hinv
    rcases mem_plannedPost _ inv hinv with ⟨ha, hk, j, hs⟩ | ⟨hs, ha, hk⟩ <;>
      simp [hookCallArgsEq, callEv, hs, ha, hargs]
  · rfl
  · rfl

/-- C10: a non-callable non-None value passed as `return_filter_func` or
as `reduce_result_func` is silently treated as absent: the wrapped call
has exactly the same outcome, and nothing is raised — the same leniency
the source applies to hook configuration. -/
theorem c10_lenient_filter_reducer [Inhabited V] (cfg : Config V K)
    (v w : V) (f : Hook V K) (a : List V) (k : K) :
    decorated_func_wrapper
        { cfg with return_filter_func := PySlot.nonCallable v } f a k =
      decorated_func_wrapper
        { cfg with return_filter_func := PySlot.absent } f a k ∧
    decorated_func_wrapper
        { cfg with reduce_result_func := PySlot.nonCallable w } f a k =
      decorated_func_wrapper
        { cfg with reduce_result_func := PySlot.absent } f a k := by
  constructor
  · rw [wrapper_eq_runSpec, wrapper_eq_runSpec]
    unfold runSpec plannedPre plannedPost sharedInvs
    have hc : ∀ (invs : List (Inv V K)) (res : List V)
        (tr : List (Event V K)),
        runInvs (PySlot.nonCallable v : PySlot V (V → Bool)) invs res tr =
          runInvs PySlot.absent invs res tr :=
      runInvs_rf_congr _ _ (fun x => rfl)
    simp only [hc]
  · rfl

end Wrappers
